import Mathlib

/-!
Verification development for the `TransactionFetcher` of
`crates/net/network/src/transactions/fetcher.rs`.

Hashes (`TxHash`) and peer identifiers (`PeerId`) are opaque values compared
by equality; both are embedded as `Nat`.  The LRU containers (`LruCache`,
`LruMap` from `crate::cache` / `schnellru`) are not part of the source tree,
so they are modelled from the spec.  All fetcher operations are translated
directly from `fetcher.rs`.
-/

/-- Modelled from the spec: the bounded LRU set `LruCache<T>` from
`crate::cache` (not in the source tree).  `elems` is ordered
least-recently-used first, matching the spec's "LRU iteration order is
least-recently-used-first". `cap` is the capacity bound. -/
structure LruSet where
  cap : Nat
  elems : List Nat
deriving DecidableEq, Repr

/-- Membership test of the LRU set. -/
def LruSet.mem (s : LruSet) (x : Nat) : Bool := s.elems.contains x

/-- Modelled from the spec: removing an element from the LRU set. -/
def LruSet.remove (s : LruSet) (x : Nat) : LruSet :=
  ⟨s.cap, s.elems.filter (fun y => y ≠ x)⟩

/-- Modelled from the spec: `remove` also reports whether the element was
present (Rust's `remove` returns `bool`). -/
def LruSet.removeRet (s : LruSet) (x : Nat) : LruSet × Bool :=
  (s.remove x, s.elems.contains x)

/-- Modelled from the spec: "the design relies on insert returns evicted
key".  Inserting an element refreshes it to most-recently-used; a fresh
insert that overflows the capacity evicts and returns the
least-recently-used element. -/
def LruSet.insertEvict (s : LruSet) (x : Nat) : LruSet × Option Nat :=
  if s.elems.contains x then
    (⟨s.cap, s.elems.filter (fun y => y ≠ x) ++ [x]⟩, none)
  else if s.cap < s.elems.length + 1 then
    match s.elems with
    | [] => (⟨s.cap, []⟩, some x)
    | e :: rest => (⟨s.cap, rest ++ [x]⟩, some e)
  else (⟨s.cap, s.elems ++ [x]⟩, none)

/-- Modelled from the spec: insert, discarding any evicted element. -/
def LruSet.insert (s : LruSet) (x : Nat) : LruSet := (s.insertEvict x).1

/-- Lookup in an association list keyed by `Nat` (embeds `LruMap` lookups;
for the unlimited `schnellru` maps the LRU order is unobservable). -/
def alGet (l : List (Nat × α)) (k : Nat) : Option α :=
  (l.find? (fun p => p.1 == k)).map (fun p => p.2)

/-- Removal of a key from an association list. -/
def alRemove (l : List (Nat × α)) (k : Nat) : List (Nat × α) :=
  l.filter (fun p => p.1 ≠ k)

/-- In-place update of the value stored at a key. -/
def alUpdate (l : List (Nat × α)) (k : Nat) (f : α → α) : List (Nat × α) :=
  l.map (fun p => if p.1 == k then (p.1, f p.2) else p)

/-- `MAX_CONCURRENT_TX_REQUESTS_PER_PEER` (fetcher.rs). -/
def MAX_CONCURRENT_TX_REQUESTS_PER_PEER : Nat := 1

/-- `MAX_REQUEST_RETRIES_PER_TX_HASH` (fetcher.rs). -/
def MAX_REQUEST_RETRIES_PER_TX_HASH : Nat := 2

/-- `MARGINAL_FALLBACK_PEERS_PER_TX` (fetcher.rs). -/
def MARGINAL_FALLBACK_PEERS_PER_TX : Nat := 1

/-- `MAX_ALTERNATIVE_PEERS_PER_TX` (fetcher.rs). -/
def MAX_ALTERNATIVE_PEERS_PER_TX : Nat :=
  MAX_REQUEST_RETRIES_PER_TX_HASH + MARGINAL_FALLBACK_PEERS_PER_TX

/-- `MAX_CONCURRENT_TX_REQUESTS` (fetcher.rs). -/
def MAX_CONCURRENT_TX_REQUESTS : Nat := 10000

/-- `GET_POOLED_TRANSACTION_SOFT_LIMIT_NUM_HASHES` (fetcher.rs). -/
def GET_POOLED_TRANSACTION_SOFT_LIMIT_NUM_HASHES : Nat := 256

/-- `MAX_CAPACITY_BUFFERED_HASHES` (fetcher.rs). -/
def MAX_CAPACITY_BUFFERED_HASHES : Nat :=
  100 * GET_POOLED_TRANSACTION_SOFT_LIMIT_NUM_HASHES

/-- State of `TransactionFetcher` (fetcher.rs).  `inflight_requests` keeps
`(peer_id, requested_hashes)` of each pending request future;
`egress_peer_channel_full` counts invocations of the
`metrics_increment_egress_peer_channel_full` callback. -/
structure Fetcher where
  active_peers : List (Nat × Nat)
  inflight_requests : List (Nat × List Nat)
  buffered_hashes : LruSet
  unknown_hashes : List (Nat × (Nat × LruSet))
  eth68_meta : List (Nat × Nat)
  egress_peer_channel_full : Nat
deriving DecidableEq, Repr

/-- `TransactionFetcher::default` (fetcher.rs). -/
def Fetcher.default : Fetcher :=
  { active_peers := []
    inflight_requests := []
    buffered_hashes := ⟨MAX_CAPACITY_BUFFERED_HASHES, []⟩
    unknown_hashes := []
    eth68_meta := []
    egress_peer_channel_full := 0 }

/-- One iteration of the loop body of
`TransactionFetcher::remove_from_unknown_hashes` (fetcher.rs): the hash is
removed from `unknown_hashes`, `eth68_meta` and `buffered_hashes`. -/
def remove_one_unknown (st : Fetcher) (hash : Nat) : Fetcher :=
  { st with
    unknown_hashes := alRemove st.unknown_hashes hash
    eth68_meta := alRemove st.eth68_meta hash
    buffered_hashes := st.buffered_hashes.remove hash }

/-- `TransactionFetcher::remove_from_unknown_hashes` (fetcher.rs). -/
def remove_from_unknown_hashes (st : Fetcher) (hashes : List Nat) : Fetcher :=
  hashes.foldl remove_one_unknown st

/-- `TransactionFetcher::on_received_full_transactions_broadcast`
(fetcher.rs): simply calls `remove_from_unknown_hashes`. -/
def on_received_full_transactions_broadcast (st : Fetcher) (hashes : List Nat) : Fetcher :=
  remove_from_unknown_hashes st hashes

/-- The per-hash loop of `TransactionFetcher::buffer_hashes` (fetcher.rs),
carrying the `max_retried_and_evicted_hashes` accumulator.  The `none` case
is the `let Some((retries, peers)) = ... else { return }` early return: the
whole function returns at once, skipping the final
`remove_from_unknown_hashes` of the accumulator. -/
def bufferLoop (st : Fetcher) (evicted : List Nat) (hashes : List Nat)
    (fallback_peer : Option Nat) : Fetcher :=
  match hashes with
  | [] => remove_from_unknown_hashes st evicted
  | hash :: rest =>
    match alGet st.unknown_hashes hash with
    | none => st
    | some (retries, _peers) =>
      match fallback_peer with
      | some peer_id =>
        let u1 := alUpdate st.unknown_hashes hash (fun rp => (rp.1, rp.2.insert peer_id))
        let st1 := { st with unknown_hashes := u1 }
        let be := st1.buffered_hashes.insertEvict hash
        let st2 := { st1 with buffered_hashes := be.1 }
        bufferLoop st2 (evicted ++ be.2.toList) rest fallback_peer
      | none =>
        if retries ≥ MAX_REQUEST_RETRIES_PER_TX_HASH then
          bufferLoop st (evicted ++ [hash]) rest fallback_peer
        else
          let u1 := alUpdate st.unknown_hashes hash (fun rp => (rp.1 + 1, rp.2))
          let st1 := { st with unknown_hashes := u1 }
          let be := st1.buffered_hashes.insertEvict hash
          let st2 := { st1 with buffered_hashes := be.1 }
          bufferLoop st2 (evicted ++ be.2.toList) rest fallback_peer

/-- `TransactionFetcher::buffer_hashes` (fetcher.rs). -/
def buffer_hashes (st : Fetcher) (hashes : List Nat) (fallback_peer : Option Nat) : Fetcher :=
  bufferLoop st [] hashes fallback_peer

/-- `TransactionFetcher::buffer_hashes_for_retry` (fetcher.rs): discards
hashes no longer in `unknown_hashes`, then buffers with no fallback peer. -/
def buffer_hashes_for_retry (st : Fetcher) (hashes : List Nat) : Fetcher :=
  buffer_hashes st (hashes.filter (fun h => (alGet st.unknown_hashes h).isSome)) none

/-- The loop body of `buffer_hashes` run over hashes that are all present in
`unknown_hashes`, with no final `remove_from_unknown_hashes` of the
eviction accumulator; characterises what `buffer_hashes` has done when the
early `return` fires. -/
def bufferSteps (st : Fetcher) (hashes : List Nat) (fallback_peer : Option Nat) : Fetcher :=
  match hashes with
  | [] => st
  | hash :: rest =>
    match alGet st.unknown_hashes hash with
    | none => st
    | some (retries, _peers) =>
      match fallback_peer with
      | some peer_id =>
        let u1 := alUpdate st.unknown_hashes hash (fun rp => (rp.1, rp.2.insert peer_id))
        let st1 := { st with unknown_hashes := u1 }
        let be := st1.buffered_hashes.insertEvict hash
        bufferSteps { st1 with buffered_hashes := be.1 } rest fallback_peer
      | none =>
        if retries ≥ MAX_REQUEST_RETRIES_PER_TX_HASH then bufferSteps st rest fallback_peer
        else
          let u1 := alUpdate st.unknown_hashes hash (fun rp => (rp.1 + 1, rp.2))
          let st1 := { st with unknown_hashes := u1 }
          let be := st1.buffered_hashes.insertEvict hash
          bufferSteps { st1 with buffered_hashes := be.1 } rest fallback_peer

/-- The `retain_by_hash` loop of
`TransactionFetcher::filter_unseen_and_pending_hashes` (fetcher.rs),
returning the retained hashes and the mutated state.  In the inflight
branch the source collects into `ended_sessions` exactly the backup peers
for which `is_session_active` returns `true` and removes them, and never
inserts the announcing peer. -/
def filterLoop (is_session_active : Nat → Bool) :
    List Nat → Fetcher → List Nat × Fetcher
  | [], st => ([], st)
  | hash :: rest, st =>
    match alGet st.unknown_hashes hash with
    | some (_retries, backups) =>
      if st.buffered_hashes.mem hash then
        let st1 := { st with buffered_hashes := st.buffered_hashes.remove hash }
        let rs := filterLoop is_session_active rest st1
        (hash :: rs.1, rs.2)
      else
        let ended_sessions := backups.elems.filter (fun p => is_session_active p)
        let backups2 := ended_sessions.foldl LruSet.remove backups
        let u1 := alUpdate st.unknown_hashes hash (fun rp => (rp.1, backups2))
        let st1 := { st with unknown_hashes := u1 }
        filterLoop is_session_active rest st1
    | none =>
      let st1 := { st with unknown_hashes :=
        st.unknown_hashes ++ [(hash, (0, ⟨MAX_ALTERNATIVE_PEERS_PER_TX, []⟩))] }
      let rs := filterLoop is_session_active rest st1
      (hash :: rs.1, rs.2)

/-- `TransactionFetcher::filter_unseen_and_pending_hashes` (fetcher.rs). -/
def filter_unseen_and_pending_hashes (st : Fetcher) (new_announced_hashes : List Nat)
    (_peer_id : Nat) (is_session_active : Nat → Bool) : List Nat × Fetcher :=
  filterLoop is_session_active new_announced_hashes st

/-- `TransactionFetcher::include_eth68_hash` (fetcher.rs): returns whether
the hash is included, together with the (possibly) updated accumulated
response size.  A hash with no `eth68_meta` entry is treated as
non-fitting.  `softLimit` stands for the externally defined
`SOFT_LIMIT_BYTE_SIZE_POOLED_TRANSACTIONS_RESPONSE_MESSAGE`. -/
def include_eth68_hash (meta : List (Nat × Nat)) (softLimit : Nat)
    (acc_size_response : Nat) (hash : Nat) : Bool × Nat :=
  match alGet meta hash with
  | some size =>
    let next_acc_size := acc_size_response + size
    if next_acc_size ≤ softLimit then (true, next_acc_size) else (false, acc_size_response)
  | none => (false, acc_size_response)

/-- The `retain` loop of `TransactionFetcher::pack_hashes_eth68`
(fetcher.rs), threading the accumulated response size and pushing rejected
hashes onto the surplus: returns (kept, surplus, final accumulated size). -/
def packRetain (meta : List (Nat × Nat)) (softLimit : Nat) :
    List Nat → Nat → List Nat → List Nat × List Nat × Nat
  | [], acc, surplus => ([], surplus, acc)
  | hash :: rest, acc, surplus =>
    let ia := include_eth68_hash meta softLimit acc hash
    if ia.1 then
      let ksa := packRetain meta softLimit rest ia.2 surplus
      (hash :: ksa.1, ksa.2.1, ksa.2.2)
    else
      packRetain meta softLimit rest ia.2 (surplus ++ [hash])

/-- `TransactionFetcher::pack_hashes_eth68` (fetcher.rs): returns the
(unchanged) state, the packed request and the surplus hashes. -/
def pack_hashes_eth68 (st : Fetcher) (softLimit : Nat) (hashes : List Nat) :
    Fetcher × List Nat × List Nat :=
  let special : Bool :=
    match hashes with
    | hash :: _ =>
      match alGet st.eth68_meta hash with
      | some size => decide (size ≥ softLimit)
      | none => false
    | [] => false
  if special then (st, hashes.take 1, hashes.drop 1)
  else
    let ksa := packRetain st.eth68_meta softLimit hashes 0 []
    (st, ksa.1, ksa.2.1)

/-- `TransactionFetcher::pack_hashes_eth66` (fetcher.rs): no surplus when
within the hash-count soft limit, otherwise `split_off` at index
`GET_POOLED_TRANSACTION_SOFT_LIMIT_NUM_HASHES - 1`. -/
def pack_hashes_eth66 (st : Fetcher) (hashes : List Nat) :
    Fetcher × List Nat × List Nat :=
  if hashes.length ≤ GET_POOLED_TRANSACTION_SOFT_LIMIT_NUM_HASHES then (st, hashes, [])
  else
    (st, hashes.take (GET_POOLED_TRANSACTION_SOFT_LIMIT_NUM_HASHES - 1),
     hashes.drop (GET_POOLED_TRANSACTION_SOFT_LIMIT_NUM_HASHES - 1))

/-- The buffered-hash loop of
`TransactionFetcher::fill_eth68_request_for_peer` (fetcher.rs), iterating a
snapshot of `buffered_hashes` (the buffer itself is only mutated after the
loop), threading `hashes` and `acc_size_response`. -/
def fillEth68Loop (softLimit : Nat) (peer_id : Nat) :
    List Nat → Fetcher → List Nat → Nat → Fetcher × List Nat × Nat
  | [], st, hashes, acc => (st, hashes, acc)
  | hash :: more, st, hashes, acc =>
    if hashes.length > GET_POOLED_TRANSACTION_SOFT_LIMIT_NUM_HASHES then (st, hashes, acc)
    else if acc ≥ 2 * softLimit / 3 then (st, hashes, acc)
    else if (alGet st.eth68_meta hash).isNone then
      fillEth68Loop softLimit peer_id more st hashes acc
    else
      let ia := include_eth68_hash st.eth68_meta softLimit acc hash
      if !ia.1 then fillEth68Loop softLimit peer_id more st hashes acc
      else
        match alGet st.unknown_hashes hash with
        | none => fillEth68Loop softLimit peer_id more st hashes acc
        | some (_, fallback_peers) =>
          if fallback_peers.mem peer_id then
            let u1 := alUpdate st.unknown_hashes hash (fun rp => (rp.1, rp.2.remove peer_id))
            let st1 := { st with unknown_hashes := u1 }
            fillEth68Loop softLimit peer_id more st1 (hashes ++ [hash]) ia.2
          else fillEth68Loop softLimit peer_id more st hashes acc

/-- `TransactionFetcher::fill_eth68_request_for_peer` (fetcher.rs): returns
the new state, the augmented request and the updated accumulated response
size.  The early return (request already at half the byte soft limit) skips
the whole loop including the final buffer removal. -/
def fill_eth68_request_for_peer (st : Fetcher) (softLimit : Nat) (hashes : List Nat)
    (peer_id : Nat) (acc_size_response : Nat) : Fetcher × List Nat × Nat :=
  if acc_size_response ≥ softLimit / 2 then (st, hashes, acc_size_response)
  else
    let r := fillEth68Loop softLimit peer_id st.buffered_hashes.elems st hashes acc_size_response
    let st2 := { r.1 with buffered_hashes := r.2.1.foldl LruSet.remove r.1.buffered_hashes }
    (st2, r.2.1, r.2.2)

/-- The buffered-hash loop of
`TransactionFetcher::fill_eth66_request_for_peer` (fetcher.rs). -/
def fillEth66Loop (peer_id : Nat) :
    List Nat → Fetcher → List Nat → Fetcher × List Nat
  | [], st, hashes => (st, hashes)
  | hash :: more, st, hashes =>
    if hashes.length ≥ GET_POOLED_TRANSACTION_SOFT_LIMIT_NUM_HASHES then (st, hashes)
    else if (alGet st.eth68_meta hash).isSome then fillEth66Loop peer_id more st hashes
    else
      match alGet st.unknown_hashes hash with
      | none => fillEth66Loop peer_id more st hashes
      | some (_, fallback_peers) =>
        if fallback_peers.mem peer_id then
          let u1 := alUpdate st.unknown_hashes hash (fun rp => (rp.1, rp.2.remove peer_id))
          let st1 := { st with unknown_hashes := u1 }
          fillEth66Loop peer_id more st1 (hashes ++ [hash])
        else fillEth66Loop peer_id more st hashes

/-- `TransactionFetcher::fill_eth66_request_for_peer` (fetcher.rs). -/
def fill_eth66_request_for_peer (st : Fetcher) (hashes : List Nat) (peer_id : Nat) :
    Fetcher × List Nat :=
  let r := fillEth66Loop peer_id st.buffered_hashes.elems st hashes
  ({ r.1 with buffered_hashes := r.2.foldl LruSet.remove r.1.buffered_hashes }, r.2)

/-- `schnellru`-style `get_or_insert` on the `active_peers` map: returns the
(possibly extended) map and the value now stored at the key.  Insertion
failure cannot occur below capacity. -/
def alGetOrInsert (l : List (Nat × Nat)) (k : Nat) (v : Nat) : List (Nat × Nat) × Nat :=
  match alGet l k with
  | some c => (l, c)
  | none => (l ++ [(k, v)], v)

/-- Outcome of the non-blocking `try_send` on the peer's request channel;
external to the fetcher, hence a parameter of the dispatch operation. -/
inductive SendResult where
  | accepted : SendResult
  | channelFull : SendResult
  | channelClosed : SendResult
deriving DecidableEq, Repr

/-- `TransactionFetcher::request_transactions_from_peer` (fetcher.rs):
returns the new state and `some surplus` when the hashes are handed back to
the caller (concurrency limit hit or `try_send` failed), `none` on success.
On `try_send` failure (`Full` or `Closed`) the metrics callback is counted
and no inflight entry is registered; the `active_peers` increment is not
rolled back. -/
def request_transactions_from_peer (st : Fetcher) (new_announced_hashes : List Nat)
    (peer_id : Nat) (send : SendResult) : Fetcher × Option (List Nat) :=
  if st.active_peers.length ≥ MAX_CONCURRENT_TX_REQUESTS then (st, some new_announced_hashes)
  else
    let gi := alGetOrInsert st.active_peers peer_id 0
    let st1 := { st with active_peers := gi.1 }
    if gi.2 ≥ MAX_CONCURRENT_TX_REQUESTS_PER_PEER then (st1, some new_announced_hashes)
    else
      let a2 := alUpdate st1.active_peers peer_id (fun c => c + 1)
      let st2 := { st1 with active_peers := a2 }
      match send with
      | SendResult.accepted =>
        let infl := st2.inflight_requests ++ [(peer_id, new_announced_hashes)]
        ({ st2 with inflight_requests := infl }, none)
      | _ =>
        ({ st2 with egress_peer_channel_full := st2.egress_peer_channel_full + 1 },
         some new_announced_hashes)

/-- `TransactionFetcher::decrement_inflight_request_count_for` (fetcher.rs):
removes the peer entry when the inflight count is at most the per-peer cap,
otherwise decrements it. -/
def decrement_inflight_request_count_for (st : Fetcher) (peer_id : Nat) : Fetcher :=
  match alGet st.active_peers peer_id with
  | none => st
  | some inflight_count =>
    if inflight_count ≤ MAX_CONCURRENT_TX_REQUESTS_PER_PEER then
      { st with active_peers := alRemove st.active_peers peer_id }
    else
      { st with active_peers := alUpdate st.active_peers peer_id (fun c => c - 1) }

/-- Result of a resolved inflight request, as dispatched on in
`<TransactionFetcher as Stream>::poll_next` (fetcher.rs): a successful
response carries the hashes of the returned transactions; the two failure
arms (`Ok(Err(_))` and `Err(_)`) mutate the state identically. -/
inductive FetchResult where
  | success : List Nat → FetchResult
  | failure : FetchResult
deriving DecidableEq, Repr

/-- The state mutation of `<TransactionFetcher as Stream>::poll_next`
(fetcher.rs) when an inflight request resolves: the future leaves
`inflight_requests`, the peer's inflight count is decremented, fetched
hashes are purged, and leftover (or all, on failure) hashes are re-buffered
for retry. -/
def handle_completion (st : Fetcher) (peer_id : Nat) (requested_hashes : List Nat)
    (result : FetchResult) : Fetcher :=
  let infl := st.inflight_requests.erase (peer_id, requested_hashes)
  let st0 := { st with inflight_requests := infl }
  let st1 := decrement_inflight_request_count_for st0 peer_id
  match result with
  | FetchResult.success tx_hashes =>
    let fetched := requested_hashes.filter (fun h => tx_hashes.contains h)
    let leftover := requested_hashes.filter (fun h => !(tx_hashes.contains h))
    buffer_hashes_for_retry (remove_from_unknown_hashes st1 fetched) leftover
  | FetchResult.failure => buffer_hashes_for_retry st1 requested_hashes

/-- Invariant `I1` of the spec: every buffered hash is a key of
`unknown_hashes`. -/
def I1 (st : Fetcher) : Prop :=
  ∀ h, h ∈ st.buffered_hashes.elems → (alGet st.unknown_hashes h).isSome

/-- Invariant `I5` of the spec: every retry counter in `unknown_hashes` is
at most `MAX_REQUEST_RETRIES_PER_TX_HASH`. -/
def RetriesBounded (st : Fetcher) : Prop :=
  ∀ h r ps, alGet st.unknown_hashes h = some (r, ps) →
    r ≤ MAX_REQUEST_RETRIES_PER_TX_HASH

/-- Total declared size of a list of hashes (size 0 for hashes without
`eth68_meta` entries; such hashes are never packed). -/
def sumSizes (meta : List (Nat × Nat)) (hs : List Nat) : Nat :=
  (hs.map (fun h => (alGet meta h).getD 0)).sum

/-- The Eth68 packaging rule as the spec words it: if the first hash has
declared size at least the byte soft limit, the request is that one hash
and the rest is the surplus in order; otherwise scan the hashes in order
with an accumulator starting at 0, keeping a hash of size `s` iff
`acc + s ≤ softLimit` (then `acc := acc + s`), and otherwise appending the
hash to the surplus and continuing the scan. -/
def packEth68Rule (meta : List (Nat × Nat)) (softLimit : Nat) (hashes : List Nat) :
    List Nat × List Nat :=
  match hashes with
  | [] => ([], [])
  | first :: rest =>
    if (match alGet meta first with
        | some s => decide (softLimit ≤ s)
        | none => false) then ([first], rest)
    else
      let scan := hashes.foldl
        (fun (acc : List Nat × List Nat × Nat) h =>
          match alGet meta h with
          | some s =>
            if acc.2.2 + s ≤ softLimit then (acc.1 ++ [h], acc.2.1, acc.2.2 + s)
            else (acc.1, acc.2.1 ++ [h], acc.2.2)
          | none => (acc.1, acc.2.1 ++ [h], acc.2.2)) ([], [], 0)
      (scan.1, scan.2.1)

/-- State with one inflight (non-buffered) unknown hash `1` whose fallback
set holds peer `5`; used to exhibit the announcement-intake behaviour. -/
def stOneInflight : Fetcher :=
  { Fetcher.default with unknown_hashes := [(1, (0, ⟨3, [5]⟩))] }

/-- State with one buffered unknown hash `1` whose fallback set holds peer
`4`. -/
def stOneBuffered : Fetcher :=
  { Fetcher.default with
    unknown_hashes := [(1, (0, ⟨3, [4]⟩))]
    buffered_hashes := ⟨MAX_CAPACITY_BUFFERED_HASHES, [1]⟩ }

/-- Eth68 size metadata of the spec scenario "Eth68 surplus packing":
sizes `[L-4, L, 2, 3, 2, 1]` for hashes `1..6`. -/
def metaSixHashes (softLimit : Nat) : List (Nat × Nat) :=
  [(1, softLimit - 4), (2, softLimit), (3, 2), (4, 3), (5, 2), (6, 1)]

/-- Fetcher preloaded with the six-hash Eth68 metadata. -/
def stSixHashes (softLimit : Nat) : Fetcher :=
  { Fetcher.default with eth68_meta := metaSixHashes softLimit }

/-- Fetcher preloaded with 257 Eth68 hashes `0..256`, each of declared
size 1. -/
def stManySmall : Fetcher :=
  { Fetcher.default with eth68_meta := (List.range 257).map (fun i => (i, 1)) }

/-- Initial state of the retry-bound scenario: one newly announced unknown
hash `1` of declared Eth68 size 5. -/
def stRetry0 : Fetcher :=
  { Fetcher.default with
    unknown_hashes := [(1, (0, ⟨3, []⟩))]
    eth68_meta := [(1, 5)] }

/-- Retry scenario, attempt 1: dispatch hash 1 to peer 7, then the peer
responds with no transactions. -/
def stRetryAfter1 : Fetcher :=
  handle_completion (request_transactions_from_peer stRetry0 [1] 7 SendResult.accepted).1
    7 [1] (FetchResult.success [])

/-- Retry scenario: peer 7 re-announces hash 1 (pulling it out of the
buffer), it is re-dispatched, and the response is empty again. -/
def stRetryAfter2 : Fetcher :=
  handle_completion
    (request_transactions_from_peer
      (filter_unseen_and_pending_hashes stRetryAfter1 [1] 7 (fun _ => false)).2
      [1] 7 SendResult.accepted).1
    7 [1] (FetchResult.success [])

/-- Retry scenario: third announcement-dispatch-empty-response round. -/
def stRetryAfter3 : Fetcher :=
  handle_completion
    (request_transactions_from_peer
      (filter_unseen_and_pending_hashes stRetryAfter2 [1] 7 (fun _ => false)).2
      [1] 7 SendResult.accepted).1
    7 [1] (FetchResult.success [])

/-- State after a first successful dispatch of `[1, 2]` to peer 7. -/
def stAfterDispatch : Fetcher :=
  (request_transactions_from_peer Fetcher.default [1, 2] 7 SendResult.accepted).1

/-- State used for the early-return scenario of `buffer_hashes`: hash 1 is
unknown with exhausted retries, hash 2 is unknown and fresh, hash 5 is not
tracked. -/
def stEarlyReturn : Fetcher :=
  { Fetcher.default with
    unknown_hashes := [(1, (2, ⟨3, []⟩)), (2, (0, ⟨3, []⟩))]
    eth68_meta := [(1, 9)] }

theorem alGet_nil (k : Nat) : alGet ([] : List (Nat × α)) k = none := rfl

theorem alGet_cons (k' : Nat) (v : α) (l : List (Nat × α)) (k : Nat) :
    alGet ((k', v) :: l) k = if k' = k then some v else alGet l k := by
  by_cases h : k' = k
  · subst h
    simp only [alGet, if_pos rfl]
    rw [List.find?_cons_of_pos _ (by simp)]
    rfl
  · simp only [alGet, if_neg h]
    rw [List.find?_cons_of_neg _ (by simp [h])]

theorem alGet_append_left {l l' : List (Nat × α)} {k : Nat} {v : α}
    (h : alGet l k = some v) : alGet (l ++ l') k = some v := by
  induction l with
  | nil => simp [alGet] at h
  | cons p t ih =>
    rcases p with ⟨k', v'⟩
    rw [List.cons_append]
    rw [alGet_cons] at h ⊢
    by_cases hk : k' = k
    · simpa [hk] using h
    · rw [if_neg hk] at h ⊢
      exact ih h

theorem alGet_append_right {l l' : List (Nat × α)} {k : Nat}
    (h : alGet l k = none) : alGet (l ++ l') k = alGet l' k := by
  induction l with
  | nil => simp
  | cons p t ih =>
    rcases p with ⟨k', v'⟩
    rw [List.cons_append]
    rw [alGet_cons] at h ⊢
    by_cases hk : k' = k
    · rw [if_pos hk] at h; exact absurd h (by simp)
    · rw [if_neg hk] at h ⊢
      exact ih h

theorem alUpdate_cons (k₀ : Nat) (v₀ : α) (t : List (Nat × α)) (k : Nat) (f : α → α) :
    alUpdate ((k₀, v₀) :: t) k f =
      (if k₀ = k then (k₀, f v₀) else (k₀, v₀)) :: alUpdate t k f := by
  by_cases h : k₀ = k <;> simp [alUpdate, h]

theorem alRemove_cons (k₀ : Nat) (v₀ : α) (t : List (Nat × α)) (k : Nat) :
    alRemove ((k₀, v₀) :: t) k =
      if k₀ = k then alRemove t k else (k₀, v₀) :: alRemove t k := by
  by_cases h : k₀ = k <;> simp [alRemove, h]

theorem alGet_alUpdate (l : List (Nat × α)) (k : Nat) (f : α → α) (k' : Nat) :
    alGet (alUpdate l k f) k' =
      if k = k' then (alGet l k').map f else alGet l k' := by
  induction l with
  | nil => by_cases h : k = k' <;> simp [alUpdate, alGet, h]
  | cons p t ih =>
    rcases p with ⟨k₀, v₀⟩
    by_cases h0 : k₀ = k
    · subst h0
      rw [alUpdate_cons, if_pos rfl]
      by_cases h1 : k₀ = k'
      · subst h1
        simp [alGet_cons]
      · simp [alGet_cons, h1, ih]
    · rw [alUpdate_cons, if_neg h0]
      by_cases h1 : k₀ = k'
      · subst h1
        have hkk : ¬ k = k₀ := fun hh => h0 hh.symm
        simp [alGet_cons, hkk]
      · simp [alGet_cons, h1, ih]

theorem alGet_alRemove (l : List (Nat × α)) (k : Nat) (k' : Nat) :
    alGet (alRemove l k) k' = if k = k' then none else alGet l k' := by
  induction l with
  | nil => by_cases h : k = k' <;> simp [alRemove, alGet, h]
  | cons p t ih =>
    rcases p with ⟨k₀, v₀⟩
    rw [alRemove_cons]
    by_cases h0 : k₀ = k
    · subst h0
      by_cases h1 : k₀ = k'
      · subst h1
        simp [ih]
      · simp [alGet_cons, h1, ih]
    · rw [if_neg h0]
      by_cases h1 : k₀ = k'
      · subst h1
        have hkk : ¬ k = k₀ := fun hh => h0 hh.symm
        simp [alGet_cons, hkk]
      · simp [alGet_cons, h1, ih]

theorem LruSet.cap_remove (s : LruSet) (y : Nat) : (s.remove y).cap = s.cap := rfl

theorem LruSet.mem_remove {s : LruSet} {x y : Nat} :
    x ∈ (s.remove y).elems ↔ x ∈ s.elems ∧ x ≠ y := by
  simp [LruSet.remove]

theorem LruSet.mem_insertEvict {s : LruSet} {x y : Nat}
    (h : x ∈ (s.insertEvict y).1.elems) : x ∈ s.elems ∨ x = y := by
  unfold LruSet.insertEvict at h
  by_cases hc : s.elems.contains y
  · rw [if_pos hc] at h
    simp only [List.mem_append, List.mem_filter, List.mem_singleton] at h
    rcases h with ⟨hm, _⟩ | he
    · exact Or.inl hm
    · exact Or.inr he
  · rw [if_neg hc] at h
    by_cases hlen : s.cap < s.elems.length + 1
    · rw [if_pos hlen] at h
      rcases hel : s.elems with _ | ⟨a, t⟩
      · rw [hel] at h
        simp at h
      · rw [hel] at h
        simp only [List.mem_append, List.mem_singleton] at h
        rcases h with hm | he
        · exact Or.inl (List.mem_cons_of_mem _ hm)
        · exact Or.inr he
    · rw [if_neg hlen] at h
      simp only [List.mem_append, List.mem_singleton] at h
      exact h

theorem LruSet.insertEvict_evicted {s : LruSet} {y e : Nat} (hcap : 1 ≤ s.cap)
    (h : (s.insertEvict y).2 = some e) : e ∈ s.elems ∧ e ≠ y := by
  unfold LruSet.insertEvict at h
  by_cases hc : s.elems.contains y
  · rw [if_pos hc] at h
    simp at h
  · rw [if_neg hc] at h
    have hy : y ∉ s.elems := fun hmem => hc (List.elem_iff.mpr hmem)
    by_cases hlen : s.cap < s.elems.length + 1
    · rw [if_pos hlen] at h
      rcases hel : s.elems with _ | ⟨a, t⟩
      · rw [hel] at hlen
        simp only [List.length_nil] at hlen
        omega
      · rw [hel] at h
        simp only [Option.some.injEq] at h
        subst h
        rw [hel] at hy
        exact ⟨List.mem_cons_self _ _, fun hey => hy (hey ▸ List.mem_cons_self _ _)⟩
    · rw [if_neg hlen] at h
      simp at h

theorem LruSet.mem_insertEvict_self {s : LruSet} {y : Nat} (hcap : 1 ≤ s.cap) :
    y ∈ (s.insertEvict y).1.elems := by
  unfold LruSet.insertEvict
  by_cases hc : s.elems.contains y
  · rw [if_pos hc]
    simp
  · rw [if_neg hc]
    by_cases hlen : s.cap < s.elems.length + 1
    · rw [if_pos hlen]
      rcases hel : s.elems with _ | ⟨a, t⟩
      · rw [hel] at hlen
        simp only [List.length_nil] at hlen
        omega
      · show y ∈ t ++ [y]
        simp
    · rw [if_neg hlen]
      simp

theorem LruSet.cap_insertEvict (s : LruSet) (y : Nat) :
    (s.insertEvict y).1.cap = s.cap := by
  unfold LruSet.insertEvict
  by_cases hc : s.elems.contains y
  · rw [if_pos hc]
  · rw [if_neg hc]
    by_cases hlen : s.cap < s.elems.length + 1
    · rw [if_pos hlen]
      rcases s.elems with _ | ⟨a, t⟩ <;> rfl
    · rw [if_neg hlen]

theorem mem_foldl_lruRemove : ∀ (hs : List Nat) (s : LruSet) (x : Nat),
    x ∈ (hs.foldl LruSet.remove s).elems → x ∈ s.elems := by
  intro hs
  induction hs with
  | nil => intro s x h; simpa using h
  | cons a t ih =>
    intro s x h
    have := ih (s.remove a) x (by simpa using h)
    exact (LruSet.mem_remove.mp this).1

theorem alGet_filter_key (l : List (Nat × α)) (q : Nat → Bool) (k : Nat) :
    alGet (l.filter (fun p => q p.1)) k = if q k then alGet l k else none := by
  induction l with
  | nil => by_cases h : q k <;> simp [alGet, h]
  | cons p t ih =>
    rcases p with ⟨k₀, v₀⟩
    rw [List.filter_cons]
    by_cases h0 : q k₀
    · rw [if_pos (by simpa using h0), alGet_cons, alGet_cons]
      by_cases h1 : k₀ = k
      · subst h1
        simp [h0]
      · simp [h1, ih]
    · rw [if_neg (by simpa using h0), ih]
      by_cases h1 : k₀ = k
      · subst h1
        simp [h0, alGet_cons]
      · simp [h1, alGet_cons]

theorem filter_contains_step {β : Type} (key : β → Nat) (h : Nat) (t : List Nat)
    (l : List β) :
    (l.filter (fun b => key b ≠ h)).filter (fun b => !(t.contains (key b))) =
      l.filter (fun b => !((h :: t).contains (key b))) := by
  rw [List.filter_filter]
  apply List.filter_congr
  intro b _
  by_cases hb : key b = h
  · simp [hb, List.contains_cons]
  · simp [hb, List.contains_cons]

theorem filter_bool_idem {β : Type} (l : List β) (p : β → Bool) :
    (l.filter p).filter p = l.filter p := by
  rw [List.filter_filter]
  apply List.filter_congr
  intro b _
  cases p b <;> simp

theorem remove_from_nil (st : Fetcher) : remove_from_unknown_hashes st [] = st := rfl

theorem remove_from_cons (st : Fetcher) (h : Nat) (t : List Nat) :
    remove_from_unknown_hashes st (h :: t) =
      remove_from_unknown_hashes (remove_one_unknown st h) t := rfl

theorem remove_from_closed : ∀ (hs : List Nat) (st : Fetcher),
    remove_from_unknown_hashes st hs =
      { st with
        unknown_hashes := st.unknown_hashes.filter (fun p => !(hs.contains p.1))
        eth68_meta := st.eth68_meta.filter (fun p => !(hs.contains p.1))
        buffered_hashes :=
          ⟨st.buffered_hashes.cap, st.buffered_hashes.elems.filter (fun x => !(hs.contains x))⟩ } := by
  intro hs
  induction hs with
  | nil =>
    intro st
    rcases st with ⟨a, i, ⟨bc, be⟩, u, m, c⟩
    simp [remove_from_unknown_hashes]
  | cons h t ih =>
    intro st
    rw [remove_from_cons, ih]
    simp only [remove_one_unknown]
    simp only [Fetcher.mk.injEq]
    refine ⟨trivial, trivial, ?_, ?_, ?_, trivial⟩
    · show (⟨(st.buffered_hashes.remove h).cap,
        (st.buffered_hashes.remove h).elems.filter (fun x => !(t.contains x))⟩ : LruSet) = _
      rw [LruSet.cap_remove]
      exact congrArg (LruSet.mk st.buffered_hashes.cap)
        (filter_contains_step (fun x => x) h t st.buffered_hashes.elems)
    · exact filter_contains_step (fun p => p.1) h t st.unknown_hashes
    · exact filter_contains_step (fun p => p.1) h t st.eth68_meta

theorem alGet_filter_not_contains (l : List (Nat × α)) (hs : List Nat) (k : Nat) :
    alGet (l.filter (fun p => !(hs.contains p.1))) k =
      if hs.contains k then none else alGet l k := by
  have h0 := alGet_filter_key l (fun x => !(hs.contains x)) k
  cases hc : hs.contains k <;> rw [hc] at h0 <;> simpa using h0

theorem remove_from_idem (st : Fetcher) (hs : List Nat) :
    remove_from_unknown_hashes (remove_from_unknown_hashes st hs) hs =
      remove_from_unknown_hashes st hs := by
  rw [remove_from_closed hs st, remove_from_closed hs]
  rcases st with ⟨a, i, ⟨bc, be⟩, u, m, c⟩
  simp [filter_bool_idem]

/-- C9: `on_received_full_transactions_broadcast` removes every given hash
from `unknown_hashes`, `eth68_meta` and `buffered_hashes`, leaves all other
entries and all other fields unchanged, succeeds on any state (the hash may
be unknown, inflight or buffered), and applying it twice equals applying it
once. -/
theorem broadcast_removes_and_is_idempotent (st : Fetcher) (hashes : List Nat) :
    (∀ h, h ∈ hashes →
      alGet (on_received_full_transactions_broadcast st hashes).unknown_hashes h = none ∧
      alGet (on_received_full_transactions_broadcast st hashes).eth68_meta h = none ∧
      h ∉ (on_received_full_transactions_broadcast st hashes).buffered_hashes.elems) ∧
    (∀ h, h ∉ hashes →
      alGet (on_received_full_transactions_broadcast st hashes).unknown_hashes h =
        alGet st.unknown_hashes h ∧
      alGet (on_received_full_transactions_broadcast st hashes).eth68_meta h =
        alGet st.eth68_meta h ∧
      (h ∈ (on_received_full_transactions_broadcast st hashes).buffered_hashes.elems ↔
        h ∈ st.buffered_hashes.elems)) ∧
    (on_received_full_transactions_broadcast st hashes).active_peers = st.active_peers ∧
    (on_received_full_transactions_broadcast st hashes).inflight_requests =
      st.inflight_requests ∧
    (on_received_full_transactions_broadcast st hashes).buffered_hashes.cap =
      st.buffered_hashes.cap ∧
    (on_received_full_transactions_broadcast st hashes).egress_peer_channel_full =
      st.egress_peer_channel_full ∧
    on_received_full_transactions_broadcast
        (on_received_full_transactions_broadcast st hashes) hashes =
      on_received_full_transactions_broadcast st hashes := by
  unfold on_received_full_transactions_broadcast
  refine ⟨?_, ?_, ?_, ?_, ?_, ?_, remove_from_idem st hashes⟩
  · intro h hmem
    have hcon : hashes.contains h = true := List.elem_iff.mpr hmem
    rw [remove_from_closed]
    refine ⟨?_, ?_, ?_⟩
    · rw [show ({ st with
          unknown_hashes := st.unknown_hashes.filter (fun p => !(hashes.contains p.1))
          eth68_meta := st.eth68_meta.filter (fun p => !(hashes.contains p.1))
          buffered_hashes := ⟨st.buffered_hashes.cap,
            st.buffered_hashes.elems.filter (fun x => !(hashes.contains x))⟩ } : Fetcher).unknown_hashes =
          st.unknown_hashes.filter (fun p => !(hashes.contains p.1)) from rfl,
        alGet_filter_not_contains, hcon, if_pos rfl]
    · rw [show ({ st with
          unknown_hashes := st.unknown_hashes.filter (fun p => !(hashes.contains p.1))
          eth68_meta := st.eth68_meta.filter (fun p => !(hashes.contains p.1))
          buffered_hashes := ⟨st.buffered_hashes.cap,
            st.buffered_hashes.elems.filter (fun x => !(hashes.contains x))⟩ } : Fetcher).eth68_meta =
          st.eth68_meta.filter (fun p => !(hashes.contains p.1)) from rfl,
        alGet_filter_not_contains, hcon, if_pos rfl]
    · intro hmem2
      have h2 := (List.mem_filter.mp hmem2).2
      rw [hcon] at h2
      simp at h2
  · intro h hmem
    have hcon : hashes.contains h = false := by
      cases hc : hashes.contains h
      · rfl
      · exact absurd (List.elem_iff.mp hc) hmem
    rw [remove_from_closed]
    refine ⟨?_, ?_, ?_⟩
    · rw [show ({ st with
          unknown_hashes := st.unknown_hashes.filter (fun p => !(hashes.contains p.1))
          eth68_meta := st.eth68_meta.filter (fun p => !(hashes.contains p.1))
          buffered_hashes := ⟨st.buffered_hashes.cap,
            st.buffered_hashes.elems.filter (fun x => !(hashes.contains x))⟩ } : Fetcher).unknown_hashes =
          st.unknown_hashes.filter (fun p => !(hashes.contains p.1)) from rfl,
        alGet_filter_not_contains, hcon, if_neg (by simp)]
    · rw [show ({ st with
          unknown_hashes := st.unknown_hashes.filter (fun p => !(hashes.contains p.1))
          eth68_meta := st.eth68_meta.filter (fun p => !(hashes.contains p.1))
          buffered_hashes := ⟨st.buffered_hashes.cap,
            st.buffered_hashes.elems.filter (fun x => !(hashes.contains x))⟩ } : Fetcher).eth68_meta =
          st.eth68_meta.filter (fun p => !(hashes.contains p.1)) from rfl,
        alGet_filter_not_contains, hcon, if_neg (by simp)]
    · simp only [List.mem_filter, hcon, Bool.not_false, and_true]
  · rw [remove_from_closed]
  · rw [remove_from_closed]
  · rw [remove_from_closed]
  · rw [remove_from_closed]

theorem I1_of_components {st st' : Fetcher}
    (hb : st'.buffered_hashes = st.buffered_hashes)
    (hu : st'.unknown_hashes = st.unknown_hashes) (h : I1 st) : I1 st' := by
  intro x hx
  rw [hb] at hx
  rw [hu]
  exact h x hx

theorem I1_remove_one {st : Fetcher} (h : I1 st) (x : Nat) :
    I1 (remove_one_unknown st x) := by
  intro k hk
  have hk2 := LruSet.mem_remove.mp hk
  show (alGet (alRemove st.unknown_hashes x) k).isSome
  rw [alGet_alRemove, if_neg (fun hh => hk2.2 hh.symm)]
  exact h k hk2.1

theorem I1_remove_from : ∀ (hs : List Nat) (st : Fetcher),
    I1 st → I1 (remove_from_unknown_hashes st hs) := by
  intro hs
  induction hs with
  | nil => intro st h; exact h
  | cons x t ih =>
    intro st h
    rw [remove_from_cons]
    exact ih _ (I1_remove_one h x)

theorem I1_bufferLoop (fb : Option Nat) : ∀ (hashes : List Nat) (st : Fetcher)
    (evicted : List Nat), I1 st → I1 (bufferLoop st evicted hashes fb) := by
  intro hashes
  induction hashes with
  | nil =>
    intro st evicted h
    exact I1_remove_from evicted st h
  | cons hash rest ih =>
    intro st evicted h
    rw [bufferLoop]
    cases hu : alGet st.unknown_hashes hash with
    | none => exact h
    | some rp =>
      rcases rp with ⟨r, ps⟩
      have hstep : ∀ (f : Nat × LruSet → Nat × LruSet),
          I1 { st with
            unknown_hashes := alUpdate st.unknown_hashes hash f
            buffered_hashes :=
              (LruSet.insertEvict
                ({ st with unknown_hashes := alUpdate st.unknown_hashes hash f }).buffered_hashes
                hash).1 } := by
        intro f k hk
        have hk2 := LruSet.mem_insertEvict hk
        show (alGet (alUpdate st.unknown_hashes hash f) k).isSome
        rw [alGet_alUpdate]
        by_cases hkh : hash = k
        · rw [if_pos hkh]
          subst hkh
          rw [hu]
          simp
        · rw [if_neg hkh]
          rcases hk2 with hmem | hkeq
          · exact h k hmem
          · exact absurd hkeq.symm hkh
      cases fb with
      | some p => exact ih _ _ (hstep _)
      | none =>
        dsimp only
        by_cases hr : r ≥ MAX_REQUEST_RETRIES_PER_TX_HASH
        · rw [if_pos hr]
          exact ih _ _ h
        · rw [if_neg hr]
          exact ih _ _ (hstep _)

theorem I1_buffer_hashes (st : Fetcher) (hashes : List Nat) (fb : Option Nat)
    (h : I1 st) : I1 (buffer_hashes st hashes fb) :=
  I1_bufferLoop fb hashes st [] h

theorem I1_buffer_hashes_for_retry (st : Fetcher) (hashes : List Nat)
    (h : I1 st) : I1 (buffer_hashes_for_retry st hashes) :=
  I1_buffer_hashes st _ none h

theorem I1_filterLoop (act : Nat → Bool) : ∀ (ann : List Nat) (st : Fetcher),
    I1 st → I1 (filterLoop act ann st).2 := by
  intro ann
  induction ann with
  | nil => intro st h; exact h
  | cons hash rest ih =>
    intro st h
    rw [filterLoop]
    cases hu : alGet st.unknown_hashes hash with
    | some rp =>
      rcases rp with ⟨r, backups⟩
      dsimp only
      by_cases hb : st.buffered_hashes.mem hash
      · rw [if_pos hb]
        refine ih _ ?_
        intro k hk
        have hk2 := LruSet.mem_remove.mp hk
        exact h k hk2.1
      · rw [if_neg hb]
        refine ih _ ?_
        intro k hk
        show (alGet (alUpdate st.unknown_hashes hash (fun rp =>
          (rp.1, List.foldl LruSet.remove backups (List.filter (fun p => act p) backups.elems)))) k).isSome
        rw [alGet_alUpdate]
        by_cases hkh : hash = k
        · rw [if_pos hkh]
          subst hkh
          rw [hu]
          simp
        · rw [if_neg hkh]
          exact h k hk
    | none =>
      refine ih _ ?_
      intro k hk
      have hks := h k hk
      rw [Option.isSome_iff_exists] at hks
      obtain ⟨v, hv⟩ := hks
      show (alGet (st.unknown_hashes ++ [(hash, (0, ⟨MAX_ALTERNATIVE_PEERS_PER_TX, []⟩))]) k).isSome
      rw [alGet_append_left hv]
      rfl

theorem I1_filter_unseen (st : Fetcher) (ann : List Nat) (p : Nat)
    (act : Nat → Bool) (h : I1 st) :
    I1 (filter_unseen_and_pending_hashes st ann p act).2 :=
  I1_filterLoop act ann st h

theorem I1_fillEth68Loop (softLimit peer_id : Nat) : ∀ (snapshot : List Nat)
    (st : Fetcher) (hashes : List Nat) (acc : Nat),
    I1 st → I1 (fillEth68Loop softLimit peer_id snapshot st hashes acc).1 := by
  intro snapshot
  induction snapshot with
  | nil => intro st hashes acc h; exact h
  | cons hash more ih =>
    intro st hashes acc h
    rw [fillEth68Loop]
    by_cases h1 : hashes.length > GET_POOLED_TRANSACTION_SOFT_LIMIT_NUM_HASHES
    · rw [if_pos h1]; exact h
    · rw [if_neg h1]
      by_cases h2 : acc ≥ 2 * softLimit / 3
      · rw [if_pos h2]; exact h
      · rw [if_neg h2]
        by_cases h3 : (alGet st.eth68_meta hash).isNone
        · rw [if_pos h3]; exact ih _ _ _ h
        · rw [if_neg h3]
          by_cases h4 : !(include_eth68_hash st.eth68_meta softLimit acc hash).1
          · rw [if_pos h4]; exact ih _ _ _ h
          · rw [if_neg h4]
            cases hu : alGet st.unknown_hashes hash with
            | none => exact ih _ _ _ h
            | some rp =>
              rcases rp with ⟨r, fallback_peers⟩
              dsimp only
              by_cases h5 : fallback_peers.mem peer_id
              · rw [if_pos h5]
                refine ih _ _ _ ?_
                intro k hk
                show (alGet (alUpdate st.unknown_hashes hash
                  (fun rp => (rp.1, rp.2.remove peer_id))) k).isSome
                rw [alGet_alUpdate]
                by_cases hkh : hash = k
                · rw [if_pos hkh]; subst hkh; rw [hu]; simp
                · rw [if_neg hkh]; exact h k hk
              · rw [if_neg h5]; exact ih _ _ _ h

theorem I1_fill_eth68 (st : Fetcher) (softLimit : Nat) (hashes : List Nat)
    (peer_id acc : Nat) (h : I1 st) :
    I1 (fill_eth68_request_for_peer st softLimit hashes peer_id acc).1 := by
  rw [fill_eth68_request_for_peer]
  by_cases h0 : acc ≥ softLimit / 2
  · rw [if_pos h0]; exact h
  · rw [if_neg h0]
    have hloop := I1_fillEth68Loop softLimit peer_id st.buffered_hashes.elems st hashes acc h
    intro k hk
    have hk2 := mem_foldl_lruRemove _ _ _ hk
    exact hloop k hk2

theorem I1_fillEth66Loop (peer_id : Nat) : ∀ (snapshot : List Nat)
    (st : Fetcher) (hashes : List Nat),
    I1 st → I1 (fillEth66Loop peer_id snapshot st hashes).1 := by
  intro snapshot
  induction snapshot with
  | nil => intro st hashes h; exact h
  | cons hash more ih =>
    intro st hashes h
    rw [fillEth66Loop]
    by_cases h1 : hashes.length ≥ GET_POOLED_TRANSACTION_SOFT_LIMIT_NUM_HASHES
    · rw [if_pos h1]; exact h
    · rw [if_neg h1]
      by_cases h2 : (alGet st.eth68_meta hash).isSome
      · rw [if_pos h2]; exact ih _ _ h
      · rw [if_neg h2]
        cases hu : alGet st.unknown_hashes hash with
        | none => exact ih _ _ h
        | some rp =>
          rcases rp with ⟨r, fallback_peers⟩
          dsimp only
          by_cases h5 : fallback_peers.mem peer_id
          · rw [if_pos h5]
            refine ih _ _ ?_
            intro k hk
            show (alGet (alUpdate st.unknown_hashes hash
              (fun rp => (rp.1, rp.2.remove peer_id))) k).isSome
            rw [alGet_alUpdate]
            by_cases hkh : hash = k
            · rw [if_pos hkh]; subst hkh; rw [hu]; simp
            · rw [if_neg hkh]; exact h k hk
          · rw [if_neg h5]; exact ih _ _ h

theorem I1_fill_eth66 (st : Fetcher) (hashes : List Nat) (peer_id : Nat)
    (h : I1 st) : I1 (fill_eth66_request_for_peer st hashes peer_id).1 := by
  rw [fill_eth66_request_for_peer]
  have hloop := I1_fillEth66Loop peer_id st.buffered_hashes.elems st hashes h
  intro k hk
  have hk2 := mem_foldl_lruRemove _ _ _ hk
  exact hloop k hk2

theorem I1_request (st : Fetcher) (hashes : List Nat) (peer_id : Nat)
    (send : SendResult) (h : I1 st) :
    I1 (request_transactions_from_peer st hashes peer_id send).1 := by
  rw [request_transactions_from_peer]
  by_cases h1 : st.active_peers.length ≥ MAX_CONCURRENT_TX_REQUESTS
  · rw [if_pos h1]; exact h
  · rw [if_neg h1]
    by_cases h2 : (alGetOrInsert st.active_peers peer_id 0).2 ≥
        MAX_CONCURRENT_TX_REQUESTS_PER_PEER
    · rw [if_pos h2]
      exact I1_of_components rfl rfl h
    · rw [if_neg h2]
      cases send with
      | accepted => exact I1_of_components rfl rfl h
      | channelFull => exact I1_of_components rfl rfl h
      | channelClosed => exact I1_of_components rfl rfl h

theorem I1_decrement (st : Fetcher) (peer_id : Nat) (h : I1 st) :
    I1 (decrement_inflight_request_count_for st peer_id) := by
  rw [decrement_inflight_request_count_for]
  cases alGet st.active_peers peer_id with
  | none => exact h
  | some c =>
    dsimp only
    by_cases hc : c ≤ MAX_CONCURRENT_TX_REQUESTS_PER_PEER
    · rw [if_pos hc]; exact I1_of_components rfl rfl h
    · rw [if_neg hc]; exact I1_of_components rfl rfl h

theorem I1_handle_completion (st : Fetcher) (peer_id : Nat)
    (requested : List Nat) (result : FetchResult) (h : I1 st) :
    I1 (handle_completion st peer_id requested result) := by
  rw [handle_completion.eq_def]
  have h0 : I1 { st with inflight_requests :=
      st.inflight_requests.erase (peer_id, requested) } :=
    I1_of_components rfl rfl h
  have h1 := I1_decrement _ peer_id h0
  cases result with
  | success tx_hashes =>
    exact I1_buffer_hashes_for_retry _ _ (I1_remove_from _ _ h1)
  | failure => exact I1_buffer_hashes_for_retry _ _ h1

theorem pack_hashes_eth68_state (st : Fetcher) (softLimit : Nat)
    (hashes : List Nat) : (pack_hashes_eth68 st softLimit hashes).1 = st := by
  rw [pack_hashes_eth68.eq_def]
  rcases hashes with _ | ⟨h1, t⟩
  · rfl
  · dsimp only
    cases alGet st.eth68_meta h1 with
    | none => rfl
    | some s =>
      dsimp only
      split <;> rfl

theorem pack_hashes_eth66_state (st : Fetcher) (hashes : List Nat) :
    (pack_hashes_eth66 st hashes).1 = st := by
  rw [pack_hashes_eth66]
  split <;> rfl

/-- C8 (invariant `I1`): after each public operation of the fetcher —
announcement intake, Eth66/Eth68 packaging, buffer augmentation, dispatch,
completion handling, broadcast reconciliation and buffering (also for
retry) — every hash in `buffered_hashes` is still a key of
`unknown_hashes`. -/
theorem I1_preserved_by_all_operations :
    (∀ st ann p act, I1 st → I1 (filter_unseen_and_pending_hashes st ann p act).2) ∧
    (∀ st softLimit hs, I1 st → I1 (pack_hashes_eth68 st softLimit hs).1) ∧
    (∀ st hs, I1 st → I1 (pack_hashes_eth66 st hs).1) ∧
    (∀ st softLimit hs p acc, I1 st → I1 (fill_eth68_request_for_peer st softLimit hs p acc).1) ∧
    (∀ st hs p, I1 st → I1 (fill_eth66_request_for_peer st hs p).1) ∧
    (∀ st hs p send, I1 st → I1 (request_transactions_from_peer st hs p send).1) ∧
    (∀ st p req res, I1 st → I1 (handle_completion st p req res)) ∧
    (∀ st hs, I1 st → I1 (on_received_full_transactions_broadcast st hs)) ∧
    (∀ st hs fb, I1 st → I1 (buffer_hashes st hs fb)) ∧
    (∀ st hs, I1 st → I1 (buffer_hashes_for_retry st hs)) := by
  refine ⟨I1_filter_unseen, ?_, ?_, I1_fill_eth68, I1_fill_eth66, I1_request,
    I1_handle_completion, ?_, I1_buffer_hashes, I1_buffer_hashes_for_retry⟩
  · intro st softLimit hs h
    rw [pack_hashes_eth68_state]
    exact h
  · intro st hs h
    rw [pack_hashes_eth66_state]
    exact h
  · intro st hs h
    exact I1_remove_from hs st h

/-- Closed witness for C8: the invariant holds concretely after each
operation applied to a small state that satisfies it. -/
theorem I1_preserved_witness :
    I1 (filter_unseen_and_pending_hashes stOneBuffered [1, 2] 9 (fun _ => true)).2 ∧
    I1 (fill_eth68_request_for_peer stOneBuffered 100 [] 4 0).1 ∧
    I1 (fill_eth66_request_for_peer stOneBuffered [] 4).1 ∧
    I1 (request_transactions_from_peer stOneBuffered [1] 7 SendResult.accepted).1 ∧
    I1 (handle_completion stOneBuffered 7 [1] (FetchResult.success [])) ∧
    I1 (on_received_full_transactions_broadcast stOneBuffered [1]) ∧
    I1 (buffer_hashes stOneBuffered [1] (some 8)) ∧
    I1 (buffer_hashes_for_retry stOneBuffered [1]) := by
  have h0 : I1 stOneBuffered := by
    intro h hmem
    have h1 : h = 1 := by simpa [stOneBuffered] using hmem
    subst h1
    decide
  obtain ⟨c1, c2, c3, c4, c5, c6, c7, c8, c9, c10⟩ := I1_preserved_by_all_operations
  exact ⟨c1 _ _ _ _ h0, c4 _ _ _ _ _ h0, c5 _ _ _ h0, c6 _ _ _ _ h0,
    c7 _ _ _ _ h0, c8 _ _ h0, c9 _ _ _ h0, c10 _ _ h0⟩

/-- Closed witness for C9: broadcast of hash 1 on a state where it is
buffered removes it everywhere and leaves the untracked hash 2 alone. -/
theorem broadcast_removes_witness :
    alGet (on_received_full_transactions_broadcast stOneBuffered [1]).unknown_hashes 1 = none ∧
    (1 : Nat) ∉ (on_received_full_transactions_broadcast stOneBuffered [1]).buffered_hashes.elems ∧
    alGet (on_received_full_transactions_broadcast stOneBuffered [1]).eth68_meta 2 =
      alGet stOneBuffered.eth68_meta 2 := by
  obtain ⟨h1, h2, _⟩ := broadcast_removes_and_is_idempotent stOneBuffered [1]
  obtain ⟨ha, _, hc⟩ := h1 1 (by simp)
  obtain ⟨_, he, _⟩ := h2 2 (by simp)
  exact ⟨ha, hc, he⟩

theorem sumSizes_nil (meta : List (Nat × Nat)) : sumSizes meta [] = 0 := rfl

theorem sumSizes_cons (meta : List (Nat × Nat)) (h : Nat) (t : List Nat) :
    sumSizes meta (h :: t) = (alGet meta h).getD 0 + sumSizes meta t := by
  simp [sumSizes]

theorem packRetain_eq_foldl (meta : List (Nat × Nat)) (softLimit : Nat) :
    ∀ (hs : List Nat) (acc : Nat) (k0 s0 : List Nat),
      hs.foldl (fun (a : List Nat × List Nat × Nat) h =>
          match alGet meta h with
          | some s =>
            if a.2.2 + s ≤ softLimit then (a.1 ++ [h], a.2.1, a.2.2 + s)
            else (a.1, a.2.1 ++ [h], a.2.2)
          | none => (a.1, a.2.1 ++ [h], a.2.2)) (k0, s0, acc) =
        (k0 ++ (packRetain meta softLimit hs acc s0).1,
         (packRetain meta softLimit hs acc s0).2.1,
         (packRetain meta softLimit hs acc s0).2.2) := by
  intro hs
  induction hs with
  | nil =>
    intro acc k0 s0
    simp [packRetain]
  | cons h t ih =>
    intro acc k0 s0
    rw [List.foldl_cons, packRetain]
    cases hm : alGet meta h with
    | some s =>
      dsimp only [include_eth68_hash]
      rw [hm]
      dsimp only
      by_cases hle : acc + s ≤ softLimit
      · rw [if_pos hle, if_pos (by simp [hle]), ih]
        simp [hle, List.append_assoc]
      · rw [if_neg hle, if_neg (by simp [hle]), ih]
        simp [hle]
    | none =>
      dsimp only [include_eth68_hash]
      rw [hm]
      dsimp only
      rw [if_neg (by simp), ih]

theorem packRetain_acc (meta : List (Nat × Nat)) (softLimit : Nat) :
    ∀ (hs : List Nat) (acc : Nat) (s0 : List Nat), acc ≤ softLimit →
      (packRetain meta softLimit hs acc s0).2.2 ≤ softLimit ∧
      (packRetain meta softLimit hs acc s0).2.2 =
        acc + sumSizes meta (packRetain meta softLimit hs acc s0).1 := by
  intro hs
  induction hs with
  | nil =>
    intro acc s0 hacc
    simp [packRetain, sumSizes, hacc]
  | cons h t ih =>
    intro acc s0 hacc
    rw [packRetain]
    cases hm : alGet meta h with
    | some s =>
      dsimp only [include_eth68_hash]
      rw [hm]
      dsimp only
      by_cases hle : acc + s ≤ softLimit
      · rw [if_pos hle, if_pos (by simp [hle])]
        obtain ⟨hb, he⟩ := ih (acc + s) s0 hle
        refine ⟨hb, ?_⟩
        rw [sumSizes_cons, hm]
        dsimp only [Option.getD]
        omega
      · rw [if_neg hle, if_neg (by simp [hle])]
        exact ih acc (s0 ++ [h]) hacc
    | none =>
      dsimp only [include_eth68_hash]
      rw [hm]
      dsimp only
      rw [if_neg (by simp)]
      exact ih acc (s0 ++ [h]) hacc

/-- C3: `pack_hashes_eth68` implements the reference packaging rule: the
single-oversize special case sends only the first hash, and otherwise the
hashes are scanned in order with an accumulator, without breaking, so that
the kept sizes sum to at most the byte soft limit; on the six-hash scenario
with sizes `[L-4, L, 2, 3, 2, 1]` the request is `[h1, h3, h5]` and the
surplus `[h2, h4, h6]`. -/
theorem pack_hashes_eth68_matches_rule :
    (∀ (st : Fetcher) (softLimit : Nat) (hashes : List Nat),
      pack_hashes_eth68 st softLimit hashes =
        (st, packEth68Rule st.eth68_meta softLimit hashes)) ∧
    (∀ (st : Fetcher) (softLimit : Nat) (hashes : List Nat),
      sumSizes st.eth68_meta (packRetain st.eth68_meta softLimit hashes 0 []).1 ≤
        softLimit) ∧
    (∀ softLimit : Nat, 5 ≤ softLimit →
      pack_hashes_eth68 (stSixHashes softLimit) softLimit [1, 2, 3, 4, 5, 6] =
        (stSixHashes softLimit, [1, 3, 5], [2, 4, 6])) := by
  refine ⟨?_, ?_, ?_⟩
  · intro st softLimit hashes
    rw [pack_hashes_eth68.eq_def, packEth68Rule.eq_def]
    rcases hashes with _ | ⟨h1, t⟩
    · rfl
    · dsimp only
      cases hm : alGet st.eth68_meta h1 with
      | none =>
        dsimp only
        have hfold := packRetain_eq_foldl st.eth68_meta softLimit (h1 :: t) 0 [] []
        rw [hfold]
        rfl
      | some s =>
        dsimp only
        by_cases hsp : softLimit ≤ s
        · rw [if_pos (by simpa using hsp), if_pos (by simpa using hsp)]
          rfl
        · rw [if_neg (by simpa using hsp), if_neg (by simpa using hsp)]
          have hfold := packRetain_eq_foldl st.eth68_meta softLimit (h1 :: t) 0 [] []
          rw [hfold]
          rfl
  · intro st softLimit hashes
    obtain ⟨hb, he⟩ :=
      packRetain_acc st.eth68_meta softLimit hashes 0 [] (Nat.zero_le _)
    omega
  · intro L hL
    have eS : ¬ (L - 4 ≥ L) := by omega
    have e1 : L - 4 ≤ L := by omega
    have e2 : ¬ (L - 4 + L ≤ L) := by omega
    have e3 : L - 4 + 2 ≤ L := by omega
    have e4 : ¬ (L - 4 + 2 + 3 ≤ L) := by omega
    have e5 : L - 4 + 2 + 2 ≤ L := by omega
    have e6 : ¬ (L - 4 + 2 + 2 + 1 ≤ L) := by omega
    simp [pack_hashes_eth68, stSixHashes, metaSixHashes, packRetain,
      include_eth68_hash, alGet_cons, eS, e1, e2, e3, e4, e5, e6]

/-- Closed witness for C3: the six-hash scenario at a concrete byte soft
limit. -/
theorem pack_hashes_eth68_matches_rule_witness :
    (5 : Nat) ≤ 100 ∧
    pack_hashes_eth68 (stSixHashes 100) 100 [1, 2, 3, 4, 5, 6] =
      (stSixHashes 100, [1, 3, 5], [2, 4, 6]) :=
  ⟨by decide, pack_hashes_eth68_matches_rule.2.2 100 (by decide)⟩

set_option maxRecDepth 100000 in
/-- Counterexample to C4 as stated: Eth68 packaging imposes no hash-count
bound at all; with 257 announced hashes of declared size 1 (byte soft limit
300) the packed request keeps all 257 hashes, exceeding
`GET_POOLED_TRANSACTION_SOFT_LIMIT_NUM_HASHES = 256`. -/
theorem pack_eth68_exceeds_count_limit :
    ¬ ((pack_hashes_eth68 stManySmall 300 (List.range 257)).2.1.length ≤
        GET_POOLED_TRANSACTION_SOFT_LIMIT_NUM_HASHES) := by
  decide

theorem fillEth66Loop_length (p : Nat) : ∀ (snapshot : List Nat) (st : Fetcher)
    (hashes : List Nat),
    hashes.length ≤ GET_POOLED_TRANSACTION_SOFT_LIMIT_NUM_HASHES →
    (fillEth66Loop p snapshot st hashes).2.length ≤
      GET_POOLED_TRANSACTION_SOFT_LIMIT_NUM_HASHES := by
  intro snapshot
  induction snapshot with
  | nil => intro st hashes h; exact h
  | cons hash more ih =>
    intro st hashes h
    rw [fillEth66Loop]
    by_cases h1 : hashes.length ≥ GET_POOLED_TRANSACTION_SOFT_LIMIT_NUM_HASHES
    · rw [if_pos h1]; exact h
    · rw [if_neg h1]
      by_cases h2 : (alGet st.eth68_meta hash).isSome
      · rw [if_pos h2]; exact ih _ _ h
      · rw [if_neg h2]
        cases alGet st.unknown_hashes hash with
        | none => exact ih _ _ h
        | some rp =>
          rcases rp with ⟨r, fallback_peers⟩
          dsimp only
          by_cases h5 : fallback_peers.mem p
          · rw [if_pos h5]
            refine ih _ _ ?_
            rw [List.length_append]
            simp only [List.length_singleton]
            omega
          · rw [if_neg h5]; exact ih _ _ h

theorem fillEth68Loop_length (L p : Nat) : ∀ (snapshot : List Nat) (st : Fetcher)
    (hashes : List Nat) (acc : Nat),
    hashes.length ≤ GET_POOLED_TRANSACTION_SOFT_LIMIT_NUM_HASHES + 1 →
    (fillEth68Loop L p snapshot st hashes acc).2.1.length ≤
      GET_POOLED_TRANSACTION_SOFT_LIMIT_NUM_HASHES + 1 := by
  intro snapshot
  induction snapshot with
  | nil => intro st hashes acc h; exact h
  | cons hash more ih =>
    intro st hashes acc h
    rw [fillEth68Loop]
    by_cases h1 : hashes.length > GET_POOLED_TRANSACTION_SOFT_LIMIT_NUM_HASHES
    · rw [if_pos h1]; exact h
    · rw [if_neg h1]
      by_cases h2 : acc ≥ 2 * L / 3
      · rw [if_pos h2]; exact h
      · rw [if_neg h2]
        by_cases h3 : (alGet st.eth68_meta hash).isNone
        · rw [if_pos h3]; exact ih _ _ _ h
        · rw [if_neg h3]
          by_cases h4 : !(include_eth68_hash st.eth68_meta L acc hash).1
          · rw [if_pos h4]; exact ih _ _ _ h
          · rw [if_neg h4]
            cases alGet st.unknown_hashes hash with
            | none => exact ih _ _ _ h
            | some rp =>
              rcases rp with ⟨r, fallback_peers⟩
              dsimp only
              by_cases h5 : fallback_peers.mem p
              · rw [if_pos h5]
                refine ih _ _ _ ?_
                rw [List.length_append]
                simp only [List.length_singleton]
                omega
              · rw [if_neg h5]; exact ih _ _ _ h

/-- C4 amended: the 256-hash count bound holds after Eth66 packaging and is
kept by the Eth66 buffer augmentation; Eth68 packaging imposes no count
bound (see the counterexample), and the Eth68 buffer augmentation, whose
loop breaks only once the count exceeds 256, guarantees only a bound of
257 when it starts from a request within the soft limit. -/
theorem request_count_bounds :
    (∀ (st : Fetcher) (hashes : List Nat),
      (pack_hashes_eth66 st hashes).2.1.length ≤
        GET_POOLED_TRANSACTION_SOFT_LIMIT_NUM_HASHES) ∧
    (∀ (st : Fetcher) (hashes : List Nat) (p : Nat),
      hashes.length ≤ GET_POOLED_TRANSACTION_SOFT_LIMIT_NUM_HASHES →
      (fill_eth66_request_for_peer st hashes p).2.length ≤
        GET_POOLED_TRANSACTION_SOFT_LIMIT_NUM_HASHES) ∧
    (∀ (st : Fetcher) (softLimit : Nat) (hashes : List Nat) (p acc : Nat),
      hashes.length ≤ GET_POOLED_TRANSACTION_SOFT_LIMIT_NUM_HASHES →
      (fill_eth68_request_for_peer st softLimit hashes p acc).2.1.length ≤
        GET_POOLED_TRANSACTION_SOFT_LIMIT_NUM_HASHES + 1) := by
  refine ⟨?_, ?_, ?_⟩
  · intro st hashes
    rw [pack_hashes_eth66]
    by_cases h1 : hashes.length ≤ GET_POOLED_TRANSACTION_SOFT_LIMIT_NUM_HASHES
    · rw [if_pos h1]; exact h1
    · rw [if_neg h1]
      simp only [List.length_take]
      omega
  · intro st hashes p h
    rw [fill_eth66_request_for_peer]
    exact fillEth66Loop_length p st.buffered_hashes.elems st hashes h
  · intro st softLimit hashes p acc h
    rw [fill_eth68_request_for_peer]
    by_cases h0 : acc ≥ softLimit / 2
    · rw [if_pos h0]
      dsimp only
      omega
    · rw [if_neg h0]
      exact fillEth68Loop_length softLimit p st.buffered_hashes.elems st hashes acc
        (by omega)

/-- Closed witness for the amended C4 at concrete inputs. -/
theorem request_count_bounds_witness :
    ([1, 2] : List Nat).length ≤ GET_POOLED_TRANSACTION_SOFT_LIMIT_NUM_HASHES ∧
    (fill_eth66_request_for_peer Fetcher.default [1, 2] 7).2.length ≤
      GET_POOLED_TRANSACTION_SOFT_LIMIT_NUM_HASHES ∧
    (fill_eth68_request_for_peer Fetcher.default 100 [1, 2] 7 0).2.1.length ≤
      GET_POOLED_TRANSACTION_SOFT_LIMIT_NUM_HASHES + 1 :=
  ⟨by decide, request_count_bounds.2.1 Fetcher.default [1, 2] 7 (by decide),
   request_count_bounds.2.2 Fetcher.default 100 [1, 2] 7 0 (by decide)⟩

theorem retries_bounded_remove_one {st : Fetcher} (h : RetriesBounded st)
    (x : Nat) : RetriesBounded (remove_one_unknown st x) := by
  intro k r ps hk
  rw [show (remove_one_unknown st x).unknown_hashes =
    alRemove st.unknown_hashes x from rfl, alGet_alRemove] at hk
  by_cases hxk : x = k
  · rw [if_pos hxk] at hk
    cases hk
  · rw [if_neg hxk] at hk
    exact h k r ps hk

theorem retries_bounded_remove_from : ∀ (hs : List Nat) (st : Fetcher),
    RetriesBounded st → RetriesBounded (remove_from_unknown_hashes st hs) := by
  intro hs
  induction hs with
  | nil => intro st h; exact h
  | cons x t ih =>
    intro st h
    rw [remove_from_cons]
    exact ih _ (retries_bounded_remove_one h x)

theorem retries_bounded_bufferLoop (fb : Option Nat) : ∀ (hashes : List Nat)
    (st : Fetcher) (evicted : List Nat),
    RetriesBounded st → RetriesBounded (bufferLoop st evicted hashes fb) := by
  intro hashes
  induction hashes with
  | nil =>
    intro st evicted h
    exact retries_bounded_remove_from evicted st h
  | cons hash rest ih =>
    intro st evicted h
    rw [bufferLoop]
    cases hu : alGet st.unknown_hashes hash with
    | none => exact h
    | some rp =>
      rcases rp with ⟨r, ps⟩
      cases fb with
      | some p =>
        refine ih _ _ ?_
        intro k r' ps' hk
        rw [show ({ st with
            unknown_hashes := alUpdate st.unknown_hashes hash
              (fun rp => (rp.1, rp.2.insert p)) } : Fetcher).unknown_hashes =
          alUpdate st.unknown_hashes hash (fun rp => (rp.1, rp.2.insert p)) from rfl] at hk
        rw [alGet_alUpdate] at hk
        by_cases hkh : hash = k
        · rw [if_pos hkh] at hk
          subst hkh
          rw [hu] at hk
          have hk2 : some (r, ps.insert p) = some (r', ps') := hk
          have hr0 := h hash r ps hu
          cases hk2
          exact hr0
        · rw [if_neg hkh] at hk
          exact h k r' ps' hk
      | none =>
        dsimp only
        by_cases hr : r ≥ MAX_REQUEST_RETRIES_PER_TX_HASH
        · rw [if_pos hr]
          exact ih _ _ h
        · rw [if_neg hr]
          refine ih _ _ ?_
          intro k r' ps' hk
          rw [show ({ st with
              unknown_hashes := alUpdate st.unknown_hashes hash
                (fun rp => (rp.1 + 1, rp.2)) } : Fetcher).unknown_hashes =
            alUpdate st.unknown_hashes hash (fun rp => (rp.1 + 1, rp.2)) from rfl] at hk
          rw [alGet_alUpdate] at hk
          by_cases hkh : hash = k
          · rw [if_pos hkh] at hk
            subst hkh
            rw [hu] at hk
            have hk2 : some (r + 1, ps) = some (r', ps') := hk
            cases hk2
            simp only [MAX_REQUEST_RETRIES_PER_TX_HASH] at hr ⊢
            omega
          · rw [if_neg hkh] at hk
            exact h k r' ps' hk

/-- C5: retry counters never exceed `MAX_REQUEST_RETRIES_PER_TX_HASH = 2`;
`buffer_hashes` with no fallback peer drops a hash whose counter already
reached the bound from all three tables and otherwise increments the
counter by one and buffers the hash; three consecutive failed fetches leave
`retries = 1`, then `retries = 2`, then remove the hash everywhere. -/
theorem retries_bounded_and_drop :
    (∀ (st : Fetcher) (hashes : List Nat) (fb : Option Nat),
      RetriesBounded st → RetriesBounded (buffer_hashes st hashes fb)) ∧
    (∀ (st : Fetcher) (h r : Nat) (ps : LruSet),
      alGet st.unknown_hashes h = some (r, ps) →
      MAX_REQUEST_RETRIES_PER_TX_HASH ≤ r →
      alGet (buffer_hashes st [h] none).unknown_hashes h = none ∧
      alGet (buffer_hashes st [h] none).eth68_meta h = none ∧
      h ∉ (buffer_hashes st [h] none).buffered_hashes.elems) ∧
    (∀ (st : Fetcher) (h r : Nat) (ps : LruSet),
      alGet st.unknown_hashes h = some (r, ps) →
      r < MAX_REQUEST_RETRIES_PER_TX_HASH → 1 ≤ st.buffered_hashes.cap →
      alGet (buffer_hashes st [h] none).unknown_hashes h = some (r + 1, ps) ∧
      h ∈ (buffer_hashes st [h] none).buffered_hashes.elems) ∧
    ((alGet stRetryAfter1.unknown_hashes 1).map (fun rp => rp.1) = some 1 ∧
     (alGet stRetryAfter2.unknown_hashes 1).map (fun rp => rp.1) = some 2 ∧
     alGet stRetryAfter3.unknown_hashes 1 = none ∧
     alGet stRetryAfter3.eth68_meta 1 = none ∧
     (1 : Nat) ∉ stRetryAfter3.buffered_hashes.elems) := by
  refine ⟨?_, ?_, ?_, by decide, by decide, by decide, by decide, by decide⟩
  · intro st hashes fb h
    exact retries_bounded_bufferLoop fb hashes st [] h
  · intro st h r ps hu hr
    rw [buffer_hashes, bufferLoop, hu]
    dsimp only
    rw [if_pos hr, bufferLoop, List.nil_append, remove_from_cons, remove_from_nil]
    refine ⟨?_, ?_, ?_⟩
    · show alGet (alRemove st.unknown_hashes h) h = none
      rw [alGet_alRemove, if_pos rfl]
    · show alGet (alRemove st.eth68_meta h) h = none
      rw [alGet_alRemove, if_pos rfl]
    · intro hmem
      exact ((LruSet.mem_remove.mp hmem).2) rfl
  · intro st h r ps hu hr hcap
    rw [buffer_hashes, bufferLoop, hu]
    dsimp only
    rw [if_neg (by omega)]
    rw [bufferLoop, List.nil_append]
    cases hev : (LruSet.insertEvict st.buffered_hashes h).2 with
    | none =>
      rw [show (Option.none (α := Nat)).toList = [] from rfl, remove_from_nil]
      constructor
      · show alGet (alUpdate st.unknown_hashes h (fun rp => (rp.1 + 1, rp.2))) h = _
        rw [alGet_alUpdate, if_pos rfl, hu]
        rfl
      · exact LruSet.mem_insertEvict_self hcap
    | some e =>
      obtain ⟨hmem_e, hne⟩ := LruSet.insertEvict_evicted hcap hev
      rw [show (Option.some e).toList = [e] from rfl, remove_from_cons, remove_from_nil]
      constructor
      · show alGet (alRemove (alUpdate st.unknown_hashes h
          (fun rp => (rp.1 + 1, rp.2))) e) h = _
        rw [alGet_alRemove, if_neg hne, alGet_alUpdate, if_pos rfl, hu]
        rfl
      · show h ∈ ((LruSet.insertEvict st.buffered_hashes h).1.remove e).elems
        rw [LruSet.mem_remove]
        exact ⟨LruSet.mem_insertEvict_self hcap, fun hh => hne hh.symm⟩

/-- Closed witness for C5: increment at a fresh hash, drop at an exhausted
hash. -/
theorem retries_bounded_and_drop_witness :
    alGet stRetry0.unknown_hashes 1 = some (0, ⟨3, []⟩) ∧
    (0 : Nat) < MAX_REQUEST_RETRIES_PER_TX_HASH ∧
    1 ≤ stRetry0.buffered_hashes.cap ∧
    alGet (buffer_hashes stRetry0 [1] none).unknown_hashes 1 = some (1, ⟨3, []⟩) ∧
    alGet stEarlyReturn.unknown_hashes 1 = some (2, ⟨3, []⟩) ∧
    MAX_REQUEST_RETRIES_PER_TX_HASH ≤ 2 ∧
    alGet (buffer_hashes stEarlyReturn [1] none).unknown_hashes 1 = none := by
  refine ⟨by decide, by decide, by decide, ?_, by decide, by decide, ?_⟩
  · exact (retries_bounded_and_drop.2.2.1 stRetry0 1 0 ⟨3, []⟩ (by decide) (by decide)
      (by decide)).1
  · exact (retries_bounded_and_drop.2.1 stEarlyReturn 1 2 ⟨3, []⟩ (by decide) (by decide)).1

theorem bufferSteps_meta (fb : Option Nat) : ∀ (hs : List Nat) (st : Fetcher),
    (bufferSteps st hs fb).eth68_meta = st.eth68_meta := by
  intro hs
  induction hs with
  | nil => intro st; rfl
  | cons hash rest ih =>
    intro st
    rw [bufferSteps]
    cases hu : alGet st.unknown_hashes hash with
    | none => rfl
    | some rp =>
      rcases rp with ⟨r, ps⟩
      cases fb with
      | some p =>
        rw [ih]
      | none =>
        dsimp only
        by_cases hr : r ≥ MAX_REQUEST_RETRIES_PER_TX_HASH
        · rw [if_pos hr, ih]
        · rw [if_neg hr, ih]

theorem bufferSteps_unknown_isSome (fb : Option Nat) : ∀ (hs : List Nat)
    (st : Fetcher) (x : Nat), (alGet st.unknown_hashes x).isSome = true →
    (alGet (bufferSteps st hs fb).unknown_hashes x).isSome = true := by
  intro hs
  induction hs with
  | nil => intro st x hx; exact hx
  | cons hash rest ih =>
    intro st x hx
    rw [bufferSteps]
    cases hu : alGet st.unknown_hashes hash with
    | none => exact hx
    | some rp =>
      rcases rp with ⟨r, ps⟩
      have hstep : ∀ (f : Nat × LruSet → Nat × LruSet),
          (alGet (alUpdate st.unknown_hashes hash f) x).isSome = true := by
        intro f
        rw [alGet_alUpdate]
        by_cases hkh : hash = x
        · rw [if_pos hkh]
          subst hkh
          rw [hu]
          rfl
        · rw [if_neg hkh]
          exact hx
      cases fb with
      | some p => exact ih _ x (hstep (fun rp => (rp.1, rp.2.insert p)))
      | none =>
        dsimp only
        by_cases hr : r ≥ MAX_REQUEST_RETRIES_PER_TX_HASH
        · rw [if_pos hr]
          exact ih _ x hx
        · rw [if_neg hr]
          exact ih _ x (hstep (fun rp => (rp.1 + 1, rp.2)))

theorem bufferSteps_unknown_none (fb : Option Nat) : ∀ (hs : List Nat)
    (st : Fetcher) (x : Nat), alGet st.unknown_hashes x = none →
    alGet (bufferSteps st hs fb).unknown_hashes x = none := by
  intro hs
  induction hs with
  | nil => intro st x hx; exact hx
  | cons hash rest ih =>
    intro st x hx
    rw [bufferSteps]
    cases hu : alGet st.unknown_hashes hash with
    | none => exact hx
    | some rp =>
      rcases rp with ⟨r, ps⟩
      have hne : hash ≠ x := by
        intro hh
        rw [hh, hx] at hu
        cases hu
      have hstep : ∀ (f : Nat × LruSet → Nat × LruSet),
          alGet (alUpdate st.unknown_hashes hash f) x = none := by
        intro f
        rw [alGet_alUpdate, if_neg hne]
        exact hx
      cases fb with
      | some p => exact ih _ x (hstep (fun rp => (rp.1, rp.2.insert p)))
      | none =>
        dsimp only
        by_cases hr : r ≥ MAX_REQUEST_RETRIES_PER_TX_HASH
        · rw [if_pos hr]
          exact ih _ x hx
        · rw [if_neg hr]
          exact ih _ x (hstep (fun rp => (rp.1 + 1, rp.2)))

theorem bufferLoop_early (fb : Option Nat) (h : Nat) (post : List Nat) :
    ∀ (pre : List Nat) (st : Fetcher) (evicted : List Nat),
    (∀ x ∈ pre, (alGet st.unknown_hashes x).isSome = true) →
    alGet st.unknown_hashes h = none →
    bufferLoop st evicted (pre ++ h :: post) fb = bufferSteps st pre fb := by
  intro pre
  induction pre with
  | nil =>
    intro st evicted hpre hh
    rw [List.nil_append, bufferLoop, hh]
    rfl
  | cons a t ih =>
    intro st evicted hpre hh
    rw [List.cons_append, bufferLoop, bufferSteps]
    have ha := hpre a (List.mem_cons_self a t)
    rw [Option.isSome_iff_exists] at ha
    obtain ⟨⟨r, ps⟩, hu⟩ := ha
    rw [hu]
    have hne : a ≠ h := by
      intro hah
      rw [hah, hh] at hu
      cases hu
    have hpres : ∀ (f : Nat × LruSet → Nat × LruSet),
        (∀ x ∈ t, (alGet (alUpdate st.unknown_hashes a f) x).isSome = true) ∧
        alGet (alUpdate st.unknown_hashes a f) h = none := by
      intro f
      constructor
      · intro x hx
        rw [alGet_alUpdate]
        by_cases hax : a = x
        · rw [if_pos hax]
          subst hax
          rw [hu]
          rfl
        · rw [if_neg hax]
          exact hpre x (List.mem_cons_of_mem a hx)
      · rw [alGet_alUpdate, if_neg hne]
        exact hh
    cases fb with
    | some p =>
      exact ih _ _ (hpres (fun rp => (rp.1, rp.2.insert p))).1
        (hpres (fun rp => (rp.1, rp.2.insert p))).2
    | none =>
      dsimp only
      by_cases hr : r ≥ MAX_REQUEST_RETRIES_PER_TX_HASH
      · rw [if_pos hr, if_pos hr]
        exact ih _ _ (fun x hx => hpre x (List.mem_cons_of_mem a hx)) hh
      · rw [if_neg hr, if_neg hr]
        exact ih _ _ (hpres (fun rp => (rp.1 + 1, rp.2))).1
          (hpres (fun rp => (rp.1 + 1, rp.2))).2

/-- C10: when `buffer_hashes` reaches a hash that is not in
`unknown_hashes` it returns at once: only the prefix before that hash has
been processed, the hashes after it are untouched, and the final removal of
the accumulated max-retried/evicted hashes is skipped, so those hashes keep
their `unknown_hashes` and `eth68_meta` entries; `buffer_hashes_for_retry`
pre-filters its input so this branch is unreachable through it. -/
theorem buffer_hashes_early_return :
    (∀ (st : Fetcher) (fb : Option Nat) (pre : List Nat) (h : Nat) (post : List Nat),
      (∀ x ∈ pre, (alGet st.unknown_hashes x).isSome = true) →
      alGet st.unknown_hashes h = none →
      buffer_hashes st (pre ++ h :: post) fb = bufferSteps st pre fb) ∧
    (∀ (st : Fetcher) (hs : List Nat) (fb : Option Nat) (x : Nat),
      (alGet st.unknown_hashes x).isSome = true →
      (alGet (bufferSteps st hs fb).unknown_hashes x).isSome = true) ∧
    (∀ (st : Fetcher) (hs : List Nat) (fb : Option Nat),
      (bufferSteps st hs fb).eth68_meta = st.eth68_meta) ∧
    (∀ (st : Fetcher) (hs : List Nat) (x : Nat),
      x ∈ hs.filter (fun y => (alGet st.unknown_hashes y).isSome) →
      (alGet st.unknown_hashes x).isSome = true) := by
  refine ⟨?_, ?_, ?_, ?_⟩
  · intro st fb pre h post hpre hh
    exact bufferLoop_early fb h post pre st [] hpre hh
  · intro st hs fb x hx
    exact bufferSteps_unknown_isSome fb hs st x hx
  · intro st hs fb
    exact bufferSteps_meta fb hs st
  · intro st hs x hx
    exact (List.mem_filter.mp hx).2

/-- Closed witness for C10: buffering `[1, 5, 2]` on a state where hash 5
is untracked stops at 5; the max-retried hash 1 keeps its entries and hash
2 is never processed. -/
theorem buffer_hashes_early_return_witness :
    (∀ x ∈ [1], (alGet stEarlyReturn.unknown_hashes x).isSome = true) ∧
    alGet stEarlyReturn.unknown_hashes 5 = none ∧
    buffer_hashes stEarlyReturn ([1] ++ 5 :: [2]) none =
      bufferSteps stEarlyReturn [1] none ∧
    alGet (buffer_hashes stEarlyReturn ([1] ++ 5 :: [2]) none).unknown_hashes 1 =
      some (2, ⟨3, []⟩) ∧
    alGet (buffer_hashes stEarlyReturn ([1] ++ 5 :: [2]) none).eth68_meta 1 = some 9 ∧
    alGet (buffer_hashes stEarlyReturn ([1] ++ 5 :: [2]) none).unknown_hashes 2 =
      some (0, ⟨3, []⟩) ∧
    (2 : Nat) ∉ (buffer_hashes stEarlyReturn ([1] ++ 5 :: [2]) none).buffered_hashes.elems := by
  refine ⟨by decide, by decide,
    buffer_hashes_early_return.1 stEarlyReturn none [1] 5 [2] (by decide) (by decide),
    by decide, by decide, by decide, by decide⟩

/-- C6: dispatch returns the whole hash list as surplus, registers no
inflight entry and leaves the state untouched whenever the global
concurrency cap is reached or the peer already has an inflight request; two
back-to-back dispatches to the same peer leave `active_peers[peer] = 1`
throughout, the second returning its hashes as surplus. -/
theorem request_respects_concurrency_limits :
    (∀ (st : Fetcher) (hashes : List Nat) (p : Nat) (send : SendResult),
      MAX_CONCURRENT_TX_REQUESTS ≤ st.active_peers.length →
      request_transactions_from_peer st hashes p send = (st, some hashes)) ∧
    (∀ (st : Fetcher) (hashes : List Nat) (p : Nat) (send : SendResult) (c : Nat),
      st.active_peers.length < MAX_CONCURRENT_TX_REQUESTS →
      alGet st.active_peers p = some c →
      MAX_CONCURRENT_TX_REQUESTS_PER_PEER ≤ c →
      request_transactions_from_peer st hashes p send = (st, some hashes)) ∧
    (request_transactions_from_peer Fetcher.default [1, 2] 7 SendResult.accepted =
        (stAfterDispatch, none) ∧
      alGet stAfterDispatch.active_peers 7 = some 1 ∧
      stAfterDispatch.inflight_requests = [(7, [1, 2])] ∧
      request_transactions_from_peer stAfterDispatch [3] 7 SendResult.accepted =
        (stAfterDispatch, some [3])) := by
  refine ⟨?_, ?_, by decide, by decide, by decide, by decide⟩
  · intro st hashes p send h
    rw [request_transactions_from_peer, if_pos h]
  · intro st hashes p send c hlen hget hc
    rw [request_transactions_from_peer, if_neg (by omega)]
    rw [alGetOrInsert.eq_def, hget]
    dsimp only
    rw [if_pos hc]

/-- Closed witness for C6: the second back-to-back dispatch to peer 7 is
refused via the per-peer cap. -/
theorem request_respects_concurrency_limits_witness :
    stAfterDispatch.active_peers.length < MAX_CONCURRENT_TX_REQUESTS ∧
    alGet stAfterDispatch.active_peers 7 = some 1 ∧
    MAX_CONCURRENT_TX_REQUESTS_PER_PEER ≤ 1 ∧
    request_transactions_from_peer stAfterDispatch [3] 7 SendResult.accepted =
      (stAfterDispatch, some [3]) := by
  refine ⟨by decide, by decide, by decide, ?_⟩
  exact request_respects_concurrency_limits.2.1 stAfterDispatch [3] 7
    SendResult.accepted 1 (by decide) (by decide) (by decide)

/-- C7: when the non-blocking send fails (channel full or closed) after the
concurrency checks passed, the metrics callback fires, the hashes come back
as surplus, no inflight entry is registered, the hash tables are untouched —
and the `active_peers` increment of step 4 is not rolled back: the peer
keeps an entry with count 1. -/
theorem request_send_failure_no_rollback :
    ∀ (st : Fetcher) (hashes : List Nat) (p : Nat) (send : SendResult),
      send ≠ SendResult.accepted →
      st.active_peers.length < MAX_CONCURRENT_TX_REQUESTS →
      (alGet st.active_peers p = none ∨ alGet st.active_peers p = some 0) →
      (request_transactions_from_peer st hashes p send).2 = some hashes ∧
      (request_transactions_from_peer st hashes p send).1.egress_peer_channel_full =
        st.egress_peer_channel_full + 1 ∧
      (request_transactions_from_peer st hashes p send).1.inflight_requests =
        st.inflight_requests ∧
      alGet (request_transactions_from_peer st hashes p send).1.active_peers p =
        some 1 ∧
      (request_transactions_from_peer st hashes p send).1.buffered_hashes =
        st.buffered_hashes ∧
      (request_transactions_from_peer st hashes p send).1.unknown_hashes =
        st.unknown_hashes ∧
      (request_transactions_from_peer st hashes p send).1.eth68_meta =
        st.eth68_meta := by
  intro st hashes p send hsend hlen hget
  rw [request_transactions_from_peer, if_neg (by omega)]
  rcases hget with hget | hget
  · rw [alGetOrInsert.eq_def, hget]
    dsimp only
    rw [if_neg (by decide)]
    cases send with
    | accepted => exact absurd rfl hsend
    | channelFull =>
      refine ⟨rfl, rfl, rfl, ?_, rfl, rfl, rfl⟩
      show alGet (alUpdate (st.active_peers ++ [(p, 0)]) p (fun c => c + 1)) p = some 1
      rw [alGet_alUpdate, if_pos rfl, alGet_append_right hget, alGet_cons, if_pos rfl]
      rfl
    | channelClosed =>
      refine ⟨rfl, rfl, rfl, ?_, rfl, rfl, rfl⟩
      show alGet (alUpdate (st.active_peers ++ [(p, 0)]) p (fun c => c + 1)) p = some 1
      rw [alGet_alUpdate, if_pos rfl, alGet_append_right hget, alGet_cons, if_pos rfl]
      rfl
  · rw [alGetOrInsert.eq_def, hget]
    dsimp only
    rw [if_neg (by decide)]
    cases send with
    | accepted => exact absurd rfl hsend
    | channelFull =>
      refine ⟨rfl, rfl, rfl, ?_, rfl, rfl, rfl⟩
      show alGet (alUpdate st.active_peers p (fun c => c + 1)) p = some 1
      rw [alGet_alUpdate, if_pos rfl, hget]
      rfl
    | channelClosed =>
      refine ⟨rfl, rfl, rfl, ?_, rfl, rfl, rfl⟩
      show alGet (alUpdate st.active_peers p (fun c => c + 1)) p = some 1
      rw [alGet_alUpdate, if_pos rfl, hget]
      rfl

/-- Closed witness for C7: a channel-full send failure against the default
state. -/
theorem request_send_failure_no_rollback_witness :
    SendResult.channelFull ≠ SendResult.accepted ∧
    Fetcher.default.active_peers.length < MAX_CONCURRENT_TX_REQUESTS ∧
    alGet Fetcher.default.active_peers 7 = none ∧
    (request_transactions_from_peer Fetcher.default [1, 2] 7 SendResult.channelFull).2 =
      some [1, 2] ∧
    alGet (request_transactions_from_peer Fetcher.default [1, 2] 7
      SendResult.channelFull).1.active_peers 7 = some 1 := by
  refine ⟨by decide, by decide, by decide, ?_, ?_⟩
  · exact (request_send_failure_no_rollback Fetcher.default [1, 2] 7
      SendResult.channelFull (by decide) (by decide) (Or.inl (by decide))).1
  · exact (request_send_failure_no_rollback Fetcher.default [1, 2] 7
      SendResult.channelFull (by decide) (by decide) (Or.inl (by decide))).2.2.2.1

/-- C1 (code bug, failing input): hash 1 is inflight with fallback set
`[5]`; peer 9 announces it while every session is inactive (so the — in
itself buggy — pruning loop removes nothing).  The hash is dropped from the
announcement, but peer 9 is never inserted into `fallback_peers[1]`: the
source's inflight branch lacks the insertion its own comment ("store peer
as fallback peer") describes, so the fallback set stays `[5]`. -/
theorem announce_inflight_does_not_register_fallback :
    (filter_unseen_and_pending_hashes stOneInflight [1] 9 (fun _ => false)).1 = [] ∧
    alGet (filter_unseen_and_pending_hashes stOneInflight [1] 9
      (fun _ => false)).2.unknown_hashes 1 = some (0, ⟨3, [5]⟩) := by
  decide

/-- C2 (code bug, failing input): the pruning predicate is inverted — the
loop collects into `ended_sessions` exactly the peers whose session IS
active and removes them, keeping dead peers — and the buffered branch
returns before any pruning.  With fallback set `[5]` and peer 5's session
active, the set is emptied; with buffered hash 1, fallback `[4]` and peer
4's session dead, the set is left untouched. -/
theorem announce_prunes_active_peers :
    alGet (filter_unseen_and_pending_hashes stOneInflight [1] 9
      (fun _ => true)).2.unknown_hashes 1 = some (0, ⟨3, []⟩) ∧
    alGet (filter_unseen_and_pending_hashes stOneBuffered [1] 9
      (fun _ => false)).2.unknown_hashes 1 = some (0, ⟨3, [4]⟩) := by
  decide
